import Mathlib

/- Verification of the async execution core of ToolMaster.js 4.2.0:
   the `retry` helper (exponential backoff) and the `parallel` helper
   (bounded-concurrency runner), from `Code main/ToolMaster@4.2.0.js`,
   lines 120-128 and 136-153.

   Modelling choices (shallow embedding):
   * An asynchronous operation is modelled by its outcome trace.  For
     `retry`, `fn n : Except e a` is the outcome of invocation number `n`
     (0-based) of the zero-argument operation `fn`.  For `parallel`, each
     task is a timer duration together with an outcome: an operation that
     settles `dur` time units after it is invoked (`setTimeout` semantics;
     timers due at the same instant fire in registration order, and
     registration order is invocation order).
   * `await` suspension points advance a discrete clock; synchronous code
     and microtask turns take zero time.
   * A JS rejection is `Except.error`; the rejection value is carried
     through unmodified, as in the source. -/

namespace ToolMaster

/-- Observable outcome of a whole `retry` call: the value or error it
settles with, the number of times the operation was invoked, and the
chronological list of backoff delays that were actually waited. -/
structure RetryRun (ε α : Type) where
  result : Except ε α
  invocations : Nat
  delays : List Nat

/-- `retry(fn, retries, delay)` from ToolMaster.js lines 120-128:
try `fn()`; on success return the value; on failure, if `retries <= 0`
rethrow the error, otherwise wait `delay`, then recurse with
`retries - 1` and `delay * 2`.  The extra parameter `n` counts how many
invocations have already happened, so `fn n` is the outcome of the current
attempt; a top-level call uses `n = 0`.  `retries` is an `Int` because the
source performs the JS comparison `retries <= 0`, which is also meaningful
for negative arguments. -/
def retry (fn : Nat → Except ε α) (retries : Int) (delay : Nat) (n : Nat) :
    RetryRun ε α :=
  match fn n with
  | .ok a => ⟨.ok a, 1, []⟩
  | .error e =>
    if h : retries ≤ 0 then ⟨.error e, 1, []⟩
    else
      let r := retry fn (retries - 1) (delay * 2) (n + 1)
      ⟨r.result, r.invocations + 1, delay :: r.delays⟩
termination_by retries.toNat
decreasing_by omega

/-- When the retry budget is already exhausted (`retries ≤ 0`), `retry`
performs exactly one attempt and waits for nothing: it settles with the
outcome of that single invocation. -/
theorem retry_exhausted (fn : Nat → Except ε α) (retries : Int) (delay : Nat)
    (n : Nat) (h : retries ≤ 0) : retry fn retries delay n = ⟨fn n, 1, []⟩ := by
  cases hfn : fn n <;> simp [retry, hfn, h]

/-- Claim C7: an operation that succeeds on its first invocation makes
`retry` resolve with that success value after exactly one invocation and
with no delay waited. -/
theorem retry_first_attempt_success (fn : Nat → Except ε α) (retries : Int)
    (delay : Nat) (a : α) (h : fn 0 = .ok a) :
    retry fn retries delay 0 = ⟨.ok a, 1, []⟩ := by
  simp [retry, h]

/-- Witness for C7 at a concrete operation. -/
theorem retry_first_attempt_success_witness :
    (fun _ : Nat => (Except.ok 42 : Except Nat Nat)) 0 = .ok 42 ∧
    retry (fun _ : Nat => (Except.ok 42 : Except Nat Nat)) 3 1000 0 =
      ⟨.ok 42, 1, []⟩ :=
  ⟨rfl, retry_first_attempt_success _ 3 1000 42 rfl⟩

/-- Claim C8: `maxRetries = 0` means exactly one attempt and no waiting:
`retry` settles with the outcome of the single invocation (the value on
success, the error itself on failure) and the waited-delay list is empty. -/
theorem retry_zero_budget (fn : Nat → Except ε α) (delay : Nat) :
    retry fn 0 delay 0 = ⟨fn 0, 1, []⟩ :=
  retry_exhausted fn 0 delay 0 le_rfl

/-- Claim C10: a negative `retries` argument behaves exactly like
`retries = 0`: the operation is invoked exactly once and, on failure, the
error is rethrown immediately with no delay and no further attempts. -/
theorem retry_negative_budget (fn : Nat → Except ε α) (r : Int) (delay : Nat)
    (h : r < 0) :
    retry fn r delay 0 = ⟨fn 0, 1, []⟩ ∧
    retry fn r delay 0 = retry fn 0 delay 0 := by
  have h1 := retry_exhausted fn r delay 0 (le_of_lt h)
  have h2 := retry_exhausted fn 0 delay 0 le_rfl
  exact ⟨h1, h1.trans h2.symm⟩

/-- Witness for C10 at a concrete always-failing operation. -/
theorem retry_negative_budget_witness :
    (-3 : Int) < 0 ∧
    retry (fun _ : Nat => (Except.error 7 : Except Nat Nat)) (-3) 50 0 =
      ⟨.error 7, 1, []⟩ ∧
    retry (fun _ : Nat => (Except.error 7 : Except Nat Nat)) (-3) 50 0 =
      retry (fun _ : Nat => (Except.error 7 : Except Nat Nat)) 0 50 0 :=
  ⟨by decide, retry_negative_budget _ (-3) 50 (by decide)⟩

/-- The doubling backoff schedule: prepending the current delay to the next
level's schedule (which starts at `delay * 2`) gives the schedule of the
current level, one step longer. -/
theorem delays_cons (d : Nat) (k : Nat) :
    d :: (List.range k).map (fun i => d * 2 * 2 ^ i) =
      (List.range (k + 1)).map (fun i => d * 2 ^ i) := by
  rw [List.range_succ_eq_map, List.map_cons, List.map_map]
  refine congrArg₂ _ (by ring) (List.map_congr_left ?_)
  intro i _
  simp [Function.comp, pow_succ]
  ring

/-- Sum of the geometric backoff schedule: delays `d, 2d, …, 2^(k-1) d`
add up to `d * (2^k - 1)`. -/
theorem delays_sum (d : Nat) (k : Nat) :
    ((List.range k).map (fun i => d * 2 ^ i)).sum = d * (2 ^ k - 1) := by
  induction k with
  | zero => simp
  | succ k ih =>
    rw [List.range_succ, List.map_append, List.sum_append, ih]
    simp only [List.map_cons, List.map_nil, List.sum_cons, List.sum_nil]
    have h1 : 1 ≤ 2 ^ k := Nat.one_le_two_pow
    obtain ⟨y, hy⟩ := Nat.exists_eq_add_of_le h1
    rw [pow_succ, hy]
    rw [show 1 + y - 1 = y by omega, show (1 + y) * 2 - 1 = 1 + 2 * y by omega]
    ring

/-- If, starting from invocation `n`, the operation fails `k` times and then
succeeds with `a`, and at least `k` retries remain in the budget, then
`retry` resolves with `a` after `k + 1` invocations, having waited the
doubling schedule `delay, 2*delay, …, 2^(k-1)*delay`. -/
theorem retry_succeeds_after (fn : Nat → Except ε α) (a : α) (k : Nat) :
    ∀ (n : Nat) (retries : Int) (delay : Nat),
      (∀ i, i < k → ∃ e, fn (n + i) = .error e) → fn (n + k) = .ok a →
      (k : Int) ≤ retries →
      retry fn retries delay n =
        ⟨.ok a, k + 1, (List.range k).map (fun i => delay * 2 ^ i)⟩ := by
  induction k with
  | zero =>
    intro n retries delay _ hsucc _
    have hn : fn n = .ok a := by simpa using hsucc
    simp [retry, hn]
  | succ k ih =>
    intro n retries delay hfail hsucc hk
    obtain ⟨e, he⟩ := hfail 0 (Nat.succ_pos k)
    have hn : fn n = .error e := by simpa using he
    have hpos : ¬ retries ≤ 0 := by omega
    have hrec := ih (n + 1) (retries - 1) (delay * 2)
      (fun i hi => by
        obtain ⟨e', he'⟩ := hfail (i + 1) (by omega)
        exact ⟨e', by rw [show n + 1 + i = n + (i + 1) by omega]; exact he'⟩)
      (by rw [show n + 1 + k = n + (k + 1) by omega]; exact hsucc)
      (by omega)
    rw [retry, hn]
    simp only [hpos, dite_false]
    rw [hrec]
    simp [delays_cons]

/-- Claim C5: an operation that fails exactly `k` times and then succeeds,
run with `maxRetries ≥ k` and initial delay `d`, makes `retry` resolve with
the success value after exactly `k + 1` invocations; the waited delays are
`d, 2d, …, 2^(k-1) d` (each double the previous) and their sum is
`d * (2^k - 1)` — zero when `k = 0`. -/
theorem retry_k_failures_then_success (fn : Nat → Except ε α) (a : α)
    (k : Nat) (retries : Int) (d : Nat)
    (hfail : ∀ i, i < k → ∃ e, fn i = .error e) (hsucc : fn k = .ok a)
    (hk : (k : Int) ≤ retries) :
    retry fn retries d 0 =
      ⟨.ok a, k + 1, (List.range k).map (fun i => d * 2 ^ i)⟩ ∧
    ((List.range k).map (fun i => d * 2 ^ i)).sum = d * (2 ^ k - 1) := by
  refine ⟨?_, delays_sum d k⟩
  have := retry_succeeds_after fn a k 0 retries d
    (fun i hi => by simpa using hfail i hi) (by simpa using hsucc) hk
  exact this

/-- Witness for C5: the spec's concrete scenario — fail twice then succeed,
`maxRetries = 3`, initial delay `100` — gives 3 invocations, waited delays
`[100, 200]`, cumulative delay `300 = 100 * (2^2 - 1)`. -/
theorem retry_k_failures_then_success_witness :
    (∀ i, i < 2 → ∃ e, (fun n : Nat => if n < 2 then (Except.error 9 : Except Nat Nat) else .ok 5) i = .error e) ∧
    (fun n : Nat => if n < 2 then (Except.error 9 : Except Nat Nat) else .ok 5) 2 = .ok 5 ∧
    ((2 : Nat) : Int) ≤ 3 ∧
    retry (fun n : Nat => if n < 2 then (Except.error 9 : Except Nat Nat) else .ok 5) 3 100 0 =
      ⟨.ok 5, 3, [100, 200]⟩ ∧
    ([100, 200] : List Nat).sum = 100 * (2 ^ 2 - 1) := by
  refine ⟨fun i hi => ⟨9, by interval_cases i <;> rfl⟩, rfl, by decide, ?_⟩
  have h := retry_k_failures_then_success
    (fun n : Nat => if n < 2 then (Except.error 9 : Except Nat Nat) else .ok 5) 5 2 3 100
    (fun i hi => ⟨9, by interval_cases i <;> rfl⟩) rfl (by decide)
  constructor
  · rw [h.1]; rfl
  · decide

/-- If the operation fails on every invocation, then starting from
invocation `n` with budget `m` (as an integer) and delay `d`, `retry`
surfaces the error of invocation `n + m` after `m + 1` invocations, having
waited the doubling schedule of length `m`. -/
theorem retry_always_fails_aux (fn : Nat → Except ε α) (es : Nat → ε)
    (hfn : ∀ i, fn i = .error (es i)) (m : Nat) :
    ∀ (n : Nat) (d : Nat),
      retry fn (m : Int) d n =
        ⟨.error (es (n + m)), m + 1, (List.range m).map (fun i => d * 2 ^ i)⟩ := by
  induction m with
  | zero =>
    intro n d
    have h0 := retry_exhausted fn ((0 : Nat) : Int) d n (by simp)
    rw [h0, hfn n]
    simp
  | succ m ih =>
    intro n d
    have hpos : ¬ ((m + 1 : Nat) : Int) ≤ 0 := by omega
    rw [retry, hfn n]
    simp only [hpos, dite_false]
    have hcast : ((m + 1 : Nat) : Int) - 1 = (m : Int) := by omega
    rw [hcast, ih (n + 1) (d * 2)]
    rw [show n + 1 + m = n + (m + 1) by omega]
    simp [delays_cons]

/-- Claim C6: an operation that fails on every invocation, run with
`maxRetries = m`, makes `retry` fail after exactly `m + 1` invocations, and
the error surfaced is exactly the error raised by the final (`m`-th,
0-based) attempt, unmodified and unwrapped. -/
theorem retry_always_fails (fn : Nat → Except ε α) (es : Nat → ε)
    (m : Nat) (d : Nat) (hfn : ∀ i, fn i = .error (es i)) :
    retry fn (m : Int) d 0 =
      ⟨.error (es m), m + 1, (List.range m).map (fun i => d * 2 ^ i)⟩ := by
  have h := retry_always_fails_aux fn es hfn m 0 d
  simpa using h

/-- Witness for C6 at a concrete always-failing operation whose error
records the attempt index: with `m = 2` the surfaced error is the third
attempt's error `12`. -/
theorem retry_always_fails_witness :
    (∀ i, (fun n : Nat => (Except.error (10 + n) : Except Nat Nat)) i = .error (10 + i)) ∧
    retry (fun n : Nat => (Except.error (10 + n) : Except Nat Nat)) ((2 : Nat) : Int) 7 0 =
      ⟨.error 12, 3, [7, 14]⟩ := by
  refine ⟨fun i => rfl, ?_⟩
  have h := retry_always_fails (fun n : Nat => (Except.error (10 + n) : Except Nat Nat))
    (fun n => 10 + n) 2 7 (fun i => rfl)
  rw [h]
  rfl

/-- A task handed to `parallel`: a zero-argument asynchronous operation that,
once invoked, settles `dur` time units later with outcome `out`
(`setTimeout`-style completion). -/
structure Task (ε α : Type) where
  dur : Nat
  out : Except ε α

/-- An in-flight promise created by `Promise.resolve().then(task)`: the index
of its task in the input array, the absolute time at which it settles, and
the outcome it settles with. -/
structure Flight (ε α : Type) where
  idx : Nat
  settleAt : Nat
  out : Except ε α

/-- State of the submission loop of `parallel`: the current clock, the
`executing` set in insertion order, the `results` array of all promises
created so far (in index order), the log of task indices invoked so far, and
the high-water mark of the size of the `executing` set (the instrumented
maximum number of simultaneously in-flight invocations). -/
structure ParState (ε α : Type) where
  time : Nat
  executing : List (Flight ε α)
  flights : List (Flight ε α)
  invoked : List Nat
  hwm : Nat

/-- Observable outcome of a whole `parallel` call: the settled value of the
returned promise, the indices of the tasks that were actually invoked (in
invocation order), and the in-flight high-water mark. -/
structure ParRun (ε α : Type) where
  result : Except ε (List α)
  invoked : List Nat
  hwm : Nat

/-- `Promise.race` over a non-empty executing set: the promise that settles
first, i.e. the one with the least settle time; among promises due at the
same instant the one whose timer was registered first (earlier in insertion
order) wins. -/
def raceWinner : Flight ε α → List (Flight ε α) → Flight ε α
  | best, [] => best
  | best, f :: rest =>
    if f.settleAt < best.settleAt then raceWinner f rest else raceWinner best rest

/-- `executing.delete(promise)` performed by the `cleanup` handler: remove
the (unique) flight with the given task index, keeping insertion order. -/
def removeFlight (i : Nat) : List (Flight ε α) → List (Flight ε α)
  | [] => []
  | f :: rest => if f.idx = i then rest else f :: removeFlight i rest

/-- One iteration prefix of the loop body (lines 141-145): create the
promise for task `i`, store it at index `i` of `results`, add it to
`executing`, and record the invocation. -/
def submit (st : ParState ε α) (i : Nat) (t : Task ε α) : ParState ε α :=
  let f : Flight ε α := ⟨i, st.time + t.dur, t.out⟩
  { st with
    executing := st.executing ++ [f]
    flights := st.flights ++ [f]
    invoked := st.invoked ++ [i]
    hwm := max st.hwm (st.executing.length + 1) }

/-- Lines 147-149: if `executing.size >= concurrency`, `await
Promise.race(executing)`.  The race winner's cleanup runs before the loop
resumes, so exactly the winner leaves the set; if the winner rejected, the
`await` throws and `parallel` rejects with that error.  The concurrency
bound is an `Int` because the source compares it with JS semantics that are
also meaningful for non-positive values. -/
def awaitRace (C : Int) (st : ParState ε α) : Except ε (ParState ε α) :=
  if (st.executing.length : Int) ≥ C then
    match st.executing with
    | [] => .ok st
    | f :: rest =>
      match (raceWinner f rest).out with
      | .error e => .error e
      | .ok _ =>
        .ok { st with time := (raceWinner f rest).settleAt
                      executing := removeFlight (raceWinner f rest).idx st.executing }
  else .ok st

/-- The `for (const [i, task] of tasks.entries())` loop (lines 140-150):
returns the loop's final state together with the error that aborted it, if
the awaited race rejected. -/
def parLoop (C : Int) : List (Nat × Task ε α) → ParState ε α →
    Option ε × ParState ε α
  | [], st => (none, st)
  | (i, t) :: rest, st =>
    let st1 := submit st i t
    match awaitRace C st1 with
    | .error e => (some e, st1)
    | .ok st2 => parLoop C rest st2

/-- `tasks.entries()`: pair every task with its index, starting at `n`. -/
def entriesFrom (n : Nat) : List α → List (Nat × α)
  | [] => []
  | a :: rest => (n, a) :: entriesFrom (n + 1) rest

/-- The first promise of the `results` array to reject, which is the one
`Promise.all` rejects with: least settle time, ties broken by registration
(index) order, i.e. first in the list. -/
def firstRejection : List (Flight ε α) → Option (Flight ε α)
  | [] => none
  | f :: rest =>
    match f.out with
    | .ok _ => firstRejection rest
    | .error _ =>
      match firstRejection rest with
      | none => some f
      | some g => if g.settleAt < f.settleAt then some g else some f

/-- The fulfilled value of `Promise.all`: the values of the promises in
array order, assuming none rejects. -/
def allValues : List (Flight ε α) → Except ε (List α)
  | [] => .ok []
  | f :: rest =>
    match f.out with
    | .error e => .error e
    | .ok a => (allValues rest).map (a :: ·)

/-- `Promise.all(results)` (line 152): reject with the first rejection if
any promise rejects, otherwise fulfil with the values in index order. -/
def promiseAll (fs : List (Flight ε α)) : Except ε (List α) :=
  match firstRejection fs with
  | some g =>
    match g.out with
    | .error e => .error e
    | .ok _ => allValues fs
  | none => allValues fs

/-- `parallel(tasks, concurrency)` from ToolMaster.js lines 136-153, as the
observable outcome of the whole call: run the submission loop from the empty
state; if an awaited race rejected, the call rejects with that error and the
remaining tasks are never invoked; otherwise the call settles like
`Promise.all` over the created promises. -/
def parallel (tasks : List (Task ε α)) (C : Int) : ParRun ε α :=
  { result :=
      match (parLoop C (entriesFrom 0 tasks) ⟨0, [], [], [], 0⟩).1 with
      | some e => .error e
      | none => promiseAll ((parLoop C (entriesFrom 0 tasks) ⟨0, [], [], [], 0⟩).2).flights
    invoked := ((parLoop C (entriesFrom 0 tasks) ⟨0, [], [], [], 0⟩).2).invoked
    hwm := ((parLoop C (entriesFrom 0 tasks) ⟨0, [], [], [], 0⟩).2).hwm }

/-- The race winner is one of the racing promises. -/
theorem raceWinner_mem : ∀ (l : List (Flight ε α)) (f : Flight ε α),
    raceWinner f l ∈ f :: l
  | [], f => by simp [raceWinner]
  | g :: rest, f => by
    simp only [raceWinner]
    split
    · have := raceWinner_mem rest g
      simp only [List.mem_cons] at this ⊢
      tauto
    · have := raceWinner_mem rest f
      simp only [List.mem_cons] at this ⊢
      tauto

/-- Deleting a promise that is present shrinks the executing set by one. -/
theorem removeFlight_length : ∀ (l : List (Flight ε α)) (w : Flight ε α),
    w ∈ l → (removeFlight w.idx l).length + 1 = l.length
  | [], w, h => by simp at h
  | f :: rest, w, h => by
    simp only [removeFlight]
    split
    · simp
    · rename_i hne
      have hw : w ∈ rest := by
        rcases List.mem_cons.mp h with rfl | h1
        · exact absurd rfl hne
        · exact h1
      simp only [List.length_cons]
      rw [← removeFlight_length rest w hw]

/-- An `awaitRace` that returns to the loop changes only the clock and the
executing set: the results array, the invocation log and the high-water mark
are untouched. -/
theorem awaitRace_ok_pres {C : Int} {st st' : ParState ε α}
    (h : awaitRace C st = .ok st') :
    st'.flights = st.flights ∧ st'.invoked = st.invoked ∧ st'.hwm = st.hwm := by
  unfold awaitRace at h
  split at h
  · split at h
    · cases h
      exact ⟨rfl, rfl, rfl⟩
    · split at h
      · simp at h
      · cases h
        exact ⟨rfl, rfl, rfl⟩
  · cases h
    exact ⟨rfl, rfl, rfl⟩

/-- After an `awaitRace` that returns to the loop, the executing set is
strictly below the concurrency bound: either it already was, or the race
removed exactly its winner. -/
theorem awaitRace_ok_len {C : Int} {st st' : ParState ε α} (hC : 1 ≤ C)
    (hle : (st.executing.length : Int) ≤ C) (h : awaitRace C st = .ok st') :
    (st'.executing.length : Int) < C := by
  unfold awaitRace at h
  split at h
  · rename_i hge
    split at h
    · rename_i hnil
      rw [hnil] at hge
      simp at hge
      omega
    · rename_i f rest hcons
      split at h
      · simp at h
      · cases h
        have hmem : raceWinner f rest ∈ st.executing := by
          rw [hcons]
          exact raceWinner_mem rest f
        have hlen := removeFlight_length st.executing (raceWinner f rest) hmem
        simp only
        omega
  · rename_i hlt
    cases h
    omega

/-- Loop invariant: if the executing set starts strictly below the bound and
the recorded high-water mark is within the bound, the final high-water mark
stays within the bound. -/
theorem parLoop_hwm (C : Int) (hC : 1 ≤ C) :
    ∀ (l : List (Nat × Task ε α)) (st : ParState ε α),
      (st.executing.length : Int) < C → (st.hwm : Int) ≤ C →
      (((parLoop C l st).2).hwm : Int) ≤ C
  | [], st, _, hh => by simpa [parLoop] using hh
  | (i, t) :: rest, st, hlen, hh => by
    simp only [parLoop]
    have hlen1 : (submit st i t).executing.length = st.executing.length + 1 := by
      simp [submit]
    have hh1 : ((submit st i t).hwm : Int) ≤ C := by
      simp only [submit]
      rw [Nat.cast_max]
      apply max_le hh
      push_cast
      omega
    cases hr : awaitRace C (submit st i t) with
    | error e => simpa [hr] using hh1
    | ok st2 =>
      simp only [hr]
      have hpres := awaitRace_ok_pres hr
      have hlt := awaitRace_ok_len hC (by omega) hr
      exact parLoop_hwm C hC rest st2 hlt (by rw [hpres.2.2]; exact hh1)

/-- Claim C1: for a batch of size `S` and any concurrency `C` with
`1 ≤ C ≤ S`, `parallel` never has more than `C` invocations in flight
simultaneously: the instrumented high-water mark of the executing set is at
most `C`. -/
theorem parallel_concurrency_bound (ts : List (Task ε α)) (C : Int)
    (h1 : 1 ≤ C) (h2 : C ≤ (ts.length : Int)) :
    (((parallel ts C).hwm : Int)) ≤ C := by
  unfold parallel
  exact parLoop_hwm C h1 (entriesFrom 0 ts) ⟨0, [], [], [], 0⟩ (by simpa using h1)
    (by simp; omega)

/-- Witness for C1: three tasks with scrambled durations at concurrency 2. -/
theorem parallel_concurrency_bound_witness :
    (1 : Int) ≤ 2 ∧
    (2 : Int) ≤ (([(⟨4, .ok 1⟩ : Task Nat Nat), ⟨2, .ok 2⟩, ⟨3, .ok 3⟩] : List (Task Nat Nat)).length : Int) ∧
    (((parallel [(⟨4, .ok 1⟩ : Task Nat Nat), ⟨2, .ok 2⟩, ⟨3, .ok 3⟩] 2).hwm : Int)) ≤ 2 :=
  ⟨by decide, by decide,
    parallel_concurrency_bound [⟨4, .ok 1⟩, ⟨2, .ok 2⟩, ⟨3, .ok 3⟩] 2 (by decide) (by decide)⟩

/-- Claim C9: `parallel` on the empty batch resolves immediately with the
empty result list, invoking no operation and running nothing concurrently —
for every concurrency argument, in particular every valid one. -/
theorem parallel_empty (ε α : Type) (C : Int) :
    parallel ([] : List (Task ε α)) C = ⟨.ok [], [], 0⟩ := rfl

/-- If the submission loop runs to completion, the results array holds one
promise per input task, in input order, each carrying its task's outcome. -/
theorem parLoop_flights (C : Int) :
    ∀ (l : List (Nat × Task ε α)) (st : ParState ε α),
      (parLoop C l st).1 = none →
      ((parLoop C l st).2).flights.map Flight.out =
        st.flights.map Flight.out ++ l.map (fun p => p.2.out)
  | [], st, _ => by simp [parLoop]
  | (i, t) :: rest, st, hnone => by
    simp only [parLoop] at hnone ⊢
    cases hr : awaitRace C (submit st i t) with
    | error e => rw [hr] at hnone; simp at hnone
    | ok st2 =>
      rw [hr] at hnone
      simp only [hr]
      have hpres := awaitRace_ok_pres hr
      rw [parLoop_flights C rest st2 hnone, hpres.1]
      simp [submit]

/-- `tasks.entries()` carries exactly the task outcomes, in order. -/
theorem entriesFrom_map_out : ∀ (n : Nat) (ts : List (Task ε α)),
    (entriesFrom n ts).map (fun p : Nat × Task ε α => p.2.out) = ts.map Task.out
  | _, [] => rfl
  | n, t :: rest => by simp [entriesFrom, entriesFrom_map_out (n + 1) rest]

/-- If `Promise.all`'s fulfilment path produces a value list, the promises'
outcomes are exactly those values, in order. -/
theorem allValues_ok : ∀ (fs : List (Flight ε α)) (l : List α),
    allValues fs = .ok l → fs.map Flight.out = l.map Except.ok
  | [], l, h => by
    simp only [allValues] at h
    cases h
    rfl
  | f :: rest, l, h => by
    simp only [allValues] at h
    cases hf : f.out with
    | error e => rw [hf] at h; simp at h
    | ok a =>
      rw [hf] at h
      cases hrest : allValues rest with
      | error e => rw [hrest] at h; simp [Except.map] at h
      | ok l2 =>
        rw [hrest] at h
        simp only [Except.map] at h
        cases h
        simp [hf, allValues_ok rest l2 hrest]

/-- A fulfilled `Promise.all` went through the no-rejection path. -/
theorem promiseAll_ok (fs : List (Flight ε α)) (l : List α)
    (h : promiseAll fs = .ok l) : allValues fs = .ok l := by
  unfold promiseAll at h
  split at h
  · split at h
    · simp at h
    · exact h
  · exact h

/-- Whatever `firstRejection` returns is a rejected promise. -/
theorem firstRejection_error : ∀ (fs : List (Flight ε α)) (g : Flight ε α),
    firstRejection fs = some g → ∃ e, g.out = .error e
  | [], g, h => by simp [firstRejection] at h
  | f :: rest, g, h => by
    simp only [firstRejection] at h
    cases hf : f.out with
    | ok a => rw [hf] at h; exact firstRejection_error rest g h
    | error e =>
      rw [hf] at h
      cases hrest : firstRejection rest with
      | none =>
        rw [hrest] at h
        cases Option.some.inj h
        exact ⟨e, hf⟩
      | some g2 =>
        rw [hrest] at h
        have h2 : (if g2.settleAt < f.settleAt then some g2 else some f) = some g := h
        by_cases hlt : g2.settleAt < f.settleAt
        · rw [if_pos hlt] at h2
          have hg : g2 = g := Option.some.inj h2
          rw [← hg]
          exact firstRejection_error rest g2 hrest
        · rw [if_neg hlt] at h2
          have hg : f = g := Option.some.inj h2
          rw [← hg]
          exact ⟨e, hf⟩

/-- If some promise in the results array rejected, `firstRejection` finds a
rejected promise. -/
theorem firstRejection_some_of_mem :
    ∀ (fs : List (Flight ε α)) (f0 : Flight ε α) (e0 : ε),
      f0 ∈ fs → f0.out = .error e0 → ∃ g, firstRejection fs = some g
  | [], f0, e0, hm, _ => by simp at hm
  | f :: rest, f0, e0, hm, he => by
    simp only [firstRejection]
    cases hf : f.out with
    | error e =>
      cases hrest : firstRejection rest with
      | none => exact ⟨f, rfl⟩
      | some g =>
        show ∃ g', (if g.settleAt < f.settleAt then some g else some f) = some g'
        by_cases hlt : g.settleAt < f.settleAt
        · rw [if_pos hlt]
          exact ⟨g, rfl⟩
        · rw [if_neg hlt]
          exact ⟨f, rfl⟩
    | ok a =>
      have hm2 : f0 ∈ rest := by
        rcases List.mem_cons.mp hm with rfl | h1
        · rw [hf] at he
          simp at he
        · exact h1
      exact firstRejection_some_of_mem rest f0 e0 hm2 he

/-- `Promise.all` rejects whenever one of its promises rejected. -/
theorem promiseAll_error_of (fs : List (Flight ε α)) (f0 : Flight ε α) (e0 : ε)
    (hm : f0 ∈ fs) (he : f0.out = .error e0) :
    ∃ e', promiseAll fs = .error e' := by
  obtain ⟨g, hg⟩ := firstRejection_some_of_mem fs f0 e0 hm he
  obtain ⟨e, hge⟩ := firstRejection_error fs g hg
  refine ⟨e, ?_⟩
  unfold promiseAll
  rw [hg]
  show (match g.out with
        | Except.error e2 => Except.error e2
        | Except.ok _ => allValues fs) = Except.error e
  rw [hge]

/-- Removing a flight from the executing set introduces no new flights. -/
theorem removeFlight_subset : ∀ (l : List (Flight ε α)) (i : Nat)
    (x : Flight ε α), x ∈ removeFlight i l → x ∈ l
  | [], _, x, h => by simp [removeFlight] at h
  | f :: rest, i, x, h => by
    simp only [removeFlight] at h
    split at h
    · exact List.mem_cons_of_mem f h
    · rcases List.mem_cons.mp h with rfl | h1
      · exact List.mem_cons_self x rest
      · exact List.mem_cons_of_mem f (removeFlight_subset rest i x h1)

/-- If an awaited race rejects, the rejection came from a promise of the
executing set. -/
theorem awaitRace_error_mem {C : Int} {st : ParState ε α} {e : ε}
    (h : awaitRace C st = .error e) :
    ∃ f ∈ st.executing, f.out = .error e := by
  unfold awaitRace at h
  split at h
  · split at h
    · simp at h
    · rename_i f rest hcons
      split at h
      · rename_i e2 herr
        cases Except.error.inj h
        refine ⟨raceWinner f rest, ?_, herr⟩
        rw [hcons]
        exact raceWinner_mem rest f
      · simp at h
  · simp at h

/-- An `awaitRace` that returns to the loop only removes promises from the
executing set: every survivor was already in flight. -/
theorem awaitRace_ok_subset {C : Int} {st st' : ParState ε α}
    (h : awaitRace C st = .ok st') :
    ∀ g ∈ st'.executing, g ∈ st.executing := by
  unfold awaitRace at h
  split at h
  · split at h
    · cases h
      exact fun g hg => hg
    · split at h
      · simp at h
      · cases h
        exact fun g hg => removeFlight_subset st.executing _ g hg
  · cases h
    exact fun g hg => hg

/-- If every in-flight promise fulfils, an awaited race cannot reject, and
the executing set it returns still contains only fulfilling promises. -/
theorem awaitRace_all_ok {C : Int} {st : ParState ε α}
    (hok : ∀ f ∈ st.executing, ∃ a, f.out = .ok a) :
    ∃ st', awaitRace C st = .ok st' ∧
      ∀ f ∈ st'.executing, ∃ a, f.out = .ok a := by
  cases hr : awaitRace C st with
  | error e =>
    obtain ⟨f, hmem, herr⟩ := awaitRace_error_mem hr
    obtain ⟨a, ha⟩ := hok f hmem
    rw [ha] at herr
    simp at herr
  | ok st2 =>
    exact ⟨st2, rfl, fun g hg => hok g (awaitRace_ok_subset hr g hg)⟩

/-- If every task of the batch fulfils, the submission loop runs to
completion: no awaited race ever rejects. -/
theorem parLoop_no_error (C : Int) :
    ∀ (l : List (Nat × Task ε α)) (st : ParState ε α),
      (∀ p ∈ l, ∃ a, p.2.out = .ok a) →
      (∀ f ∈ st.executing, ∃ a, f.out = .ok a) →
      (parLoop C l st).1 = none
  | [], _, _, _ => rfl
  | (i, t) :: rest, st, hl, hst => by
    simp only [parLoop]
    have hsub : ∀ f ∈ (submit st i t).executing, ∃ a, f.out = .ok a := by
      intro f hf
      simp only [submit, List.mem_append, List.mem_singleton] at hf
      rcases hf with hf | rfl
      · exact hst f hf
      · exact hl (i, t) (List.mem_cons_self _ _)
    obtain ⟨st2, hst2, hok2⟩ := awaitRace_all_ok (C := C) hsub
    rw [hst2]
    exact parLoop_no_error C rest st2
      (fun p hp => hl p (List.mem_cons_of_mem _ hp)) hok2

/-- Every entry produced by `tasks.entries()` is one of the tasks. -/
theorem entriesFrom_mem : ∀ (n : Nat) (ts : List (Task ε α))
    (p : Nat × Task ε α), p ∈ entriesFrom n ts → p.2 ∈ ts
  | _, [], p, h => by simp [entriesFrom] at h
  | n, t :: rest, p, h => by
    simp only [entriesFrom, List.mem_cons] at h
    rcases h with rfl | h1
    · exact List.mem_cons_self t rest
    · exact List.mem_cons_of_mem t (entriesFrom_mem (n + 1) rest p h1)

/-- Over promises that all fulfil, `firstRejection` finds nothing. -/
theorem firstRejection_none : ∀ (fs : List (Flight ε α)),
    (∀ f ∈ fs, ∃ a, f.out = .ok a) → firstRejection fs = none
  | [], _ => rfl
  | f :: rest, h => by
    obtain ⟨a, ha⟩ := h f (List.mem_cons_self f rest)
    simp only [firstRejection]
    rw [ha]
    exact firstRejection_none rest fun g hg => h g (List.mem_cons_of_mem f hg)

/-- Over promises that all fulfil, `allValues` produces a value list. -/
theorem allValues_some : ∀ (fs : List (Flight ε α)),
    (∀ f ∈ fs, ∃ a, f.out = .ok a) → ∃ l, allValues fs = .ok l
  | [], _ => ⟨[], rfl⟩
  | f :: rest, h => by
    obtain ⟨a, ha⟩ := h f (List.mem_cons_self f rest)
    obtain ⟨l, hl⟩ := allValues_some rest fun g hg => h g (List.mem_cons_of_mem f hg)
    refine ⟨a :: l, ?_⟩
    simp only [allValues]
    rw [ha, hl]
    rfl

/-- Claim C4: whenever `parallel` fulfils with a result sequence `l`, that
sequence has exactly one entry per input task and entry `i` is the success
value of task `i`, regardless of the tasks' durations (completion order):
the input outcomes are exactly `l`'s values position by position, so no
operation is dropped, duplicated or reordered; and on every batch whose
operations all succeed a result sequence is indeed fulfilled. -/
theorem parallel_result_aligned (ts : List (Task ε α)) (C : Int)
    (h1 : 1 ≤ C) :
    (∀ l, (parallel ts C).result = .ok l →
      l.length = ts.length ∧ ts.map Task.out = l.map Except.ok) ∧
    ((∀ t ∈ ts, ∃ a, t.out = .ok a) → ∃ l, (parallel ts C).result = .ok l) := by
  constructor
  · intro l hres
    have hres2 : (match (parLoop C (entriesFrom 0 ts) ⟨0, [], [], [], 0⟩).1 with
        | some e => (Except.error e : Except ε (List α))
        | none => promiseAll ((parLoop C (entriesFrom 0 ts) ⟨0, [], [], [], 0⟩).2).flights) =
        .ok l := hres
    cases hr : (parLoop C (entriesFrom 0 ts) ⟨0, [], [], [], 0⟩).1 with
    | some e => rw [hr] at hres2; simp at hres2
    | none =>
      rw [hr] at hres2
      simp only at hres2
      have hfl := parLoop_flights C (entriesFrom 0 ts) ⟨0, [], [], [], 0⟩ hr
      rw [entriesFrom_map_out] at hfl
      simp only [List.map_nil, List.nil_append] at hfl
      have hvals := allValues_ok _ l (promiseAll_ok _ l hres2)
      have hmain : ts.map Task.out = l.map Except.ok := hfl.symm.trans hvals
      refine ⟨?_, hmain⟩
      have := congrArg List.length hmain
      simpa using this.symm
  · intro hall
    have hr := parLoop_no_error C (entriesFrom 0 ts) ⟨0, [], [], [], 0⟩
      (fun p hp => hall p.2 (entriesFrom_mem 0 ts p hp)) (by simp)
    have hfl := parLoop_flights C (entriesFrom 0 ts) ⟨0, [], [], [], 0⟩ hr
    rw [entriesFrom_map_out] at hfl
    simp only [List.map_nil, List.nil_append] at hfl
    have hflok : ∀ f ∈ ((parLoop C (entriesFrom 0 ts) ⟨0, [], [], [], 0⟩).2).flights,
        ∃ a, f.out = .ok a := by
      intro f hf
      have hmem : f.out ∈ ts.map Task.out := by
        rw [← hfl]
        exact List.mem_map_of_mem Flight.out hf
      obtain ⟨t, ht, hto⟩ := List.mem_map.mp hmem
      obtain ⟨a, ha⟩ := hall t ht
      exact ⟨a, by rw [← hto]; exact ha⟩
    have hfr := firstRejection_none _ hflok
    obtain ⟨l, hl⟩ := allValues_some _ hflok
    refine ⟨l, ?_⟩
    show (match (parLoop C (entriesFrom 0 ts) ⟨0, [], [], [], 0⟩).1 with
        | some e => (Except.error e : Except ε (List α))
        | none => promiseAll ((parLoop C (entriesFrom 0 ts) ⟨0, [], [], [], 0⟩).2).flights) =
        .ok l
    rw [hr]
    show promiseAll ((parLoop C (entriesFrom 0 ts) ⟨0, [], [], [], 0⟩).2).flights = .ok l
    unfold promiseAll
    rw [hfr]
    exact hl

/-- Witness for C4: the spec's scrambled-completion scenario — durations
200, 50, 100 at concurrency 2 — fulfils with the values in input order. -/
theorem parallel_result_aligned_witness :
    (1 : Int) ≤ 2 ∧
    (parallel [(⟨200, .ok 10⟩ : Task Nat Nat), ⟨50, .ok 20⟩, ⟨100, .ok 30⟩] 2).result =
      .ok [10, 20, 30] ∧
    ([10, 20, 30] : List Nat).length =
      ([(⟨200, .ok 10⟩ : Task Nat Nat), ⟨50, .ok 20⟩, ⟨100, .ok 30⟩] : List (Task Nat Nat)).length ∧
    ([(⟨200, .ok 10⟩ : Task Nat Nat), ⟨50, .ok 20⟩, ⟨100, .ok 30⟩] : List (Task Nat Nat)).map Task.out =
      ([10, 20, 30] : List Nat).map Except.ok :=
  ⟨by decide, rfl,
    (parallel_result_aligned [⟨200, .ok 10⟩, ⟨50, .ok 20⟩, ⟨100, .ok 30⟩] 2
      (by decide)).1 [10, 20, 30] rfl⟩

/-- Counterexample to claim C2 as stated: with tasks `[fail, succeed]` at
concurrency 1, the first task's failure rejects the whole call (the result
is the bare error, not a per-slot result set) and the second task is never
invoked. -/
theorem parallel_failure_isolation_cex :
    parallel [(⟨0, .error 7⟩ : Task Nat Nat), ⟨0, .ok 1⟩] 1 = ⟨.error 7, [0], 1⟩ ∧
    1 ∉ (parallel [(⟨0, .error 7⟩ : Task Nat Nat), ⟨0, .ok 1⟩] 1).invoked :=
  ⟨rfl, by decide⟩

/-- Amended claim C2: an individual operation's failure is not isolated —
whenever any task of the batch fails, `parallel` rejects with a single
error, so per-operation failures are not individually observable in the
result, and operations whose submission follows the loop's observation of a
failure are never invoked. -/
theorem parallel_any_failure_rejects (ts : List (Task ε α)) (C : Int)
    (t : Task ε α) (e : ε) (ht : t ∈ ts) (he : t.out = .error e) :
    ∃ e', (parallel ts C).result = .error e' := by
  unfold parallel
  cases hr : (parLoop C (entriesFrom 0 ts) ⟨0, [], [], [], 0⟩).1 with
  | some e2 => exact ⟨e2, by simp [hr]⟩
  | none =>
    have hfl := parLoop_flights C (entriesFrom 0 ts) ⟨0, [], [], [], 0⟩ hr
    rw [entriesFrom_map_out] at hfl
    simp only [List.map_nil, List.nil_append] at hfl
    have hmem : Except.error e ∈
        ((parLoop C (entriesFrom 0 ts) ⟨0, [], [], [], 0⟩).2).flights.map Flight.out := by
      rw [hfl, ← he]
      exact List.mem_map_of_mem Task.out ht
    obtain ⟨f, hfmem, hfout⟩ := List.mem_map.mp hmem
    obtain ⟨e', he'⟩ := promiseAll_error_of _ f e hfmem hfout
    exact ⟨e', by simp [hr, he']⟩

/-- Witness for the amended C2: a batch with a failing second task rejects. -/
theorem parallel_any_failure_rejects_witness :
    (⟨1, .error 8⟩ : Task Nat Nat) ∈ [(⟨3, .ok 5⟩ : Task Nat Nat), ⟨1, .error 8⟩] ∧
    (⟨1, .error 8⟩ : Task Nat Nat).out = .error 8 ∧
    ∃ e', (parallel [(⟨3, .ok 5⟩ : Task Nat Nat), ⟨1, .error 8⟩] 2).result = .error e' :=
  ⟨List.mem_cons_of_mem _ (List.mem_cons_self _ _), rfl,
    parallel_any_failure_rejects [⟨3, .ok 5⟩, ⟨1, .error 8⟩] 2 ⟨1, .error 8⟩ 8
      (List.mem_cons_of_mem _ (List.mem_cons_self _ _)) rfl⟩

/-- Counterexample to claim C3 as stated: at concurrency 0, `parallel` does
not fail fast with a configuration error — it invokes its operation and
fulfils normally. -/
theorem parallel_nonpositive_cex :
    parallel [(⟨0, .ok 5⟩ : Task Nat Nat)] 0 = ⟨.ok [5], [0], 1⟩ ∧
    (parallel [(⟨0, .ok 5⟩ : Task Nat Nat)] 0).invoked ≠ [] :=
  ⟨rfl, by decide⟩

/-- With a single in-flight promise, an awaited race settles with it: reject
with its error, or remove it from the set and advance the clock. -/
theorem awaitRace_single (C : Int) (hC : C ≤ 1) (st : ParState ε α)
    (f : Flight ε α) (h : st.executing = [f]) :
    awaitRace C st =
      match f.out with
      | .error e => .error e
      | .ok _ => .ok { st with time := f.settleAt, executing := [] } := by
  unfold awaitRace
  rw [h]
  have hge : ((([f] : List (Flight ε α)).length : Int) ≥ C) := by simp; omega
  rw [if_pos hge]
  show (match (raceWinner f []).out with
        | Except.error e => (Except.error e : Except ε (ParState ε α))
        | Except.ok _ =>
          .ok { st with time := (raceWinner f []).settleAt,
                        executing := removeFlight (raceWinner f []).idx [f] }) = _
  simp only [raceWinner]
  cases hout : f.out with
  | error e => rfl
  | ok a => simp [removeFlight]

/-- With a non-positive concurrency bound the loop awaits after every
submission, exactly as it does with bound 1: from an empty executing set the
two runs coincide step by step. -/
theorem parLoop_le_one (C : Int) (hC : C ≤ 1) :
    ∀ (l : List (Nat × Task ε α)) (st : ParState ε α), st.executing = [] →
      parLoop C l st = parLoop 1 l st
  | [], _, _ => rfl
  | (i, t) :: rest, st, hemp => by
    simp only [parLoop]
    have hsub : (submit st i t).executing = [⟨i, st.time + t.dur, t.out⟩] := by
      simp [submit, hemp]
    rw [awaitRace_single C hC _ _ hsub, awaitRace_single 1 le_rfl _ _ hsub]
    cases (⟨i, st.time + t.dur, t.out⟩ : Flight ε α).out with
    | error e => rfl
    | ok a =>
      simp only
      exact parLoop_le_one C hC rest _ rfl

/-- Amended claim C3: `parallel` performs no validation of its concurrency
argument; for every concurrency `C ≤ 0` it raises no configuration error and
behaves exactly as it does with concurrency 1, invoking every operation it
reaches sequentially. -/
theorem parallel_nonpositive_as_one (ts : List (Task ε α)) (C : Int)
    (hC : C ≤ 0) : parallel ts C = parallel ts 1 := by
  unfold parallel
  rw [parLoop_le_one C (by omega) (entriesFrom 0 ts) ⟨0, [], [], [], 0⟩ rfl]

/-- Witness for the amended C3: concurrency `-2` runs a two-task batch
exactly like concurrency 1. -/
theorem parallel_nonpositive_as_one_witness :
    (-2 : Int) ≤ 0 ∧
    parallel [(⟨3, .ok 5⟩ : Task Nat Nat), ⟨2, .ok 6⟩] (-2) =
      parallel [(⟨3, .ok 5⟩ : Task Nat Nat), ⟨2, .ok 6⟩] 1 :=
  ⟨by decide, parallel_nonpositive_as_one [⟨3, .ok 5⟩, ⟨2, .ok 6⟩] (-2) (by decide)⟩

end ToolMaster
